import Mathlib

/-!
Verification of the byte-level patch engine in `src/elite-modify.py`.

The script loads a flat binary image (`gma6`) into a `bytearray`, decrypts it
with a chained byte cipher (high-to-low traversal), applies a sequence of
byte-level patches (slice assignments, a block-shift loop, a tail append),
re-encrypts it (low-to-high traversal), and finally applies a small
platform-dependent set of byte overwrites to a second image (`gma1`).

Images are modelled as `List Nat` (a `bytearray` holds values in `[0, 256)`;
where a theorem needs that invariant it is an explicit hypothesis).  Python's
`%` on ints always returns a non-negative representative, so byte arithmetic
is modelled with `Int` subtraction followed by `% 256` and `toNat`.
-/

namespace Elite

/-- Byte subtraction as computed by Python's `(a - b) % 256` on ints
(the result of `%` with a positive modulus is non-negative in Python). -/
def sub256 (a b : Nat) : Nat := (((a : Int) - (b : Int)) % 256).toNat

/-- Byte addition as computed by Python's `(a + b) % 256`. -/
def add256 (a b : Nat) : Nat := (a + b) % 256

lemma sub256_lt (a b : Nat) : sub256 a b < 256 := by
  unfold sub256; omega

lemma add256_lt (a b : Nat) : add256 a b < 256 := by
  unfold add256; omega

lemma add256_sub256 (a b : Nat) (h : a < 256) : add256 (sub256 a b) b = a := by
  unfold add256 sub256; omega

lemma sub256_add256 (a b : Nat) (h : a < 256) : sub256 (add256 a b) b = a := by
  unfold sub256 add256; omega

/-! ### List access helpers (total access via `getD`) -/

lemma getD_set (l : List Nat) (i j v : Nat) :
    (l.set i v).getD j 0 = if i = j ∧ i < l.length then v else l.getD j 0 := by
  induction l generalizing i j with
  | nil => simp
  | cons a t ih =>
    cases i with
    | zero =>
      cases j with
      | zero => simp
      | succ j => simp
    | succ i =>
      cases j with
      | zero => simp
      | succ j =>
        have := ih i j
        simp only [List.set, List.getD_cons_succ, List.length_cons]
        rw [this]
        by_cases hij : i = j
        · subst hij
          by_cases hl : i < t.length
          · rw [if_pos ⟨rfl, hl⟩, if_pos ⟨rfl, by omega⟩]
          · rw [if_neg (by omega), if_neg (by omega)]
        · rw [if_neg (by omega), if_neg (by omega)]

lemma getD_append (a c : List Nat) (j : Nat) :
    (a ++ c).getD j 0 = if j < a.length then a.getD j 0 else c.getD (j - a.length) 0 := by
  induction a generalizing j with
  | nil => simp
  | cons x xs ih =>
    cases j with
    | zero => simp
    | succ j =>
      simp only [List.cons_append, List.getD_cons_succ, List.length_cons]
      rw [ih j]
      by_cases h : j < xs.length
      · rw [if_pos h, if_pos (by omega)]
      · rw [if_neg h, if_neg (by omega)]
        congr 1
        omega

lemma getD_drop (b : List Nat) (m j : Nat) :
    (b.drop m).getD j 0 = b.getD (m + j) 0 := by
  induction b generalizing m with
  | nil => simp
  | cons x xs ih =>
    cases m with
    | zero => simp
    | succ m =>
      simp only [List.drop_succ_cons]
      rw [ih m]
      have : m + 1 + j = (m + j) + 1 := by omega
      rw [this, List.getD_cons_succ]

lemma getD_take (b : List Nat) (s j : Nat) (h : j < s) :
    (b.take s).getD j 0 = b.getD j 0 := by
  induction b generalizing s j with
  | nil => simp
  | cons x xs ih =>
    cases s with
    | zero => omega
    | succ s =>
      cases j with
      | zero => simp
      | succ j =>
        simp only [List.take_succ_cons, List.getD_cons_succ]
        exact ih s j (by omega)

lemma getD_of_length_le (l : List Nat) (j : Nat) (h : l.length ≤ j) :
    l.getD j 0 = 0 := by
  induction l generalizing j with
  | nil => simp
  | cons x xs ih =>
    cases j with
    | zero => simp at h
    | succ j =>
      simp only [List.getD_cons_succ]
      exact ih j (by simp at h; omega)

lemma ext_getD (a b : List Nat) (hl : a.length = b.length)
    (h : ∀ j, j < a.length → a.getD j 0 = b.getD j 0) : a = b := by
  induction a generalizing b with
  | nil =>
    cases b with
    | nil => rfl
    | cons y ys => simp at hl
  | cons x xs ih =>
    cases b with
    | nil => simp at hl
    | cons y ys =>
      have hx : x = y := h 0 (by simp)
      have ht : xs = ys := by
        apply ih ys (by simpa using hl)
        intro j hj
        have := h (j + 1) (by simpa using Nat.succ_lt_succ hj)
        simpa using this
      rw [hx, ht]

lemma getD_mem_lt (l : List Nat) (j : Nat) (hj : j < l.length)
    (h : ∀ x ∈ l, x < 256) : l.getD j 0 < 256 := by
  induction l generalizing j with
  | nil => simp at hj
  | cons x xs ih =>
    cases j with
    | zero => exact h x (by simp)
    | succ j =>
      simp only [List.getD_cons_succ]
      exact ih j (by simpa using hj) (fun y hy => h y (by simp [hy]))

/-! ### Configuration constants, from `elite-modify.py` lines 91-94 -/

/-- `load_address = 0x6A00 - 2` -/
def load_address : Nat := 0x6A00 - 2

/-- `seed = 0x49` -/
def seed : Nat := 0x49

/-- `scramble_from = 0x6A00` -/
def scramble_from : Nat := 0x6A00

/-- `scramble_to = 0x6A00 + 0x62D6` -/
def scramble_to : Nat := 0x6A00 + 0x62D6

/-! ### The scramble codec

The decrypt pass (lines 111-116 of the source):
```
updated_seed = seed
for n in range(scramble_to, scramble_from - 1, -1):
    new = (data_block[n - load_address] - updated_seed) % 256
    data_block[n - load_address] = new
    updated_seed = new
```
The loop is expressed at offset level (`off = n - load_address`); the loop
counter decreases by one per iteration exactly as `n` does, provided
`load_address ≤ scramble_from` (true in the script, and a hypothesis of
every theorem below).
-/

/-- One-for-one rendering of the decrypt loop body: processes offsets
`off, off - 1, ...` for `k` iterations, threading the updated seed. -/
def decryptLoop : List Nat → Nat → Nat → Nat → List Nat
  | img, _, 0, _ => img
  | img, off, k+1, s =>
      decryptLoop (img.set off (sub256 (img.getD off 0) s)) (off - 1) k
        (sub256 (img.getD off 0) s)

/-- Number of iterations of `range(st, sf - 1, -1)`. -/
def rangeRevLen (st sf : Nat) : Nat := if sf ≤ st then st - sf + 1 else 0

/-- The decrypt pass: descending traversal from `st - la` over the window. -/
def decrypt (img : List Nat) (la sf st s : Nat) : List Nat :=
  decryptLoop img (st - la) (rangeRevLen st sf) s

/-- One-for-one rendering of the encrypt loop (lines 446-447):
```
for n in range(scramble_from, scramble_to):
    data_block[n - load_address] = (data_block[n - load_address] + data_block[n + 1 - load_address]) % 256
```
processes offsets `off, off + 1, ...` for `k` iterations. -/
def encryptLoop : List Nat → Nat → Nat → List Nat
  | img, _, 0 => img
  | img, off, k+1 =>
      encryptLoop (img.set off (add256 (img.getD off 0) (img.getD (off + 1) 0))) (off + 1) k

/-- The encrypt pass: the ascending loop followed by the final seed step
(line 449): `data_block[scramble_to - load_address] = (data_block[scramble_to - load_address] + seed) % 256`. -/
def encrypt (img : List Nat) (la sf st s : Nat) : List Nat :=
  let i2 := encryptLoop img (sf - la) (st - sf)
  i2.set (st - la) (add256 (i2.getD (st - la) 0) s)

/-- The plain-text chain produced by decryption, as a pure recurrence:
`dseq f top s d` is the decrypted value at offset `top - d`, where `f` gives
the original (cipher) bytes and `s` is the initial seed. -/
def dseq (f : Nat → Nat) (top s : Nat) : Nat → Nat
  | 0 => sub256 (f top) s
  | d+1 => sub256 (f (top - (d+1))) (dseq f top s d)

/-! ### The patch applier

`insert_bytes` (source lines 61-65) performs a Python `bytearray` slice
assignment `data_block[insert_from:insert_to] = insert`.  Python slice
assignment never raises for out-of-range bounds: each bound is first shifted
by the length if negative, then clamped into `[0, len]`, and a stop below the
start is raised to the start.  That normalization is `pySliceIdx` /
`setSlice` below. -/

/-- Normalize one Python slice bound against a sequence of length `len`:
negative bounds count from the end, then everything is clamped to
`[0, len]`. -/
def pySliceIdx (len : Nat) (i : Int) : Nat :=
  if i < 0 then ((len : Int) + i).toNat else min i.toNat len

/-- Python slice assignment `b[i:j] = s` on a `bytearray`. -/
def setSlice (b : List Nat) (i j : Int) (s : List Nat) : List Nat :=
  b.take (pySliceIdx b.length i) ++ s ++
    b.drop (max (pySliceIdx b.length i) (pySliceIdx b.length j))

/-- `get_offset(addr) = addr - load_address` (source lines 43-44).  The
result can be negative, so it lives in `Int`. -/
def get_offset (la addr : Int) : Int := addr - la

/-- `insert_bytes(data_block, addr, insert)` (source lines 61-65):
```
insert_from = get_offset(addr)
insert_to = insert_from + len(insert)
data_block[insert_from:insert_to] = insert
``` -/
def insert_bytes (la : Int) (data_block : List Nat) (addr : Int)
    (insert : List Nat) : List Nat :=
  setSlice data_block (get_offset la addr) (get_offset la addr + insert.length) insert

/-- `insert_binary_file(data_block, addr, filename)` (source lines 49-56):
identical slice assignment, with the payload read from a file; the file's
bytes are a parameter here. -/
def insert_binary_file (la : Int) (data_block : List Nat) (addr : Int)
    (contents : List Nat) : List Nat :=
  setSlice data_block (get_offset la addr) (get_offset la addr + contents.length) contents

/-- `insert_nops(data_block, addr, count)` (source lines 70-73): `count`
copies of the NOP opcode `0xEA`. -/
def insert_nops (la : Int) (data_block : List Nat) (addr : Int) (count : Nat) : List Nat :=
  insert_bytes la data_block addr (List.replicate count 0xEA)

/-! ### The block shift (source lines 296-298)

```
lda_sta_block = get_offset(0x9FDD)
for n in range(lda_sta_block, lda_sta_block + 4 * 5):
    data_block[n] = data_block[n + 4]
```
The loop below generalizes this in-place copy: it walks `len` destination
offsets upward from `dest`, copying from `gap` positions above (the script's
single call has `gap = 4`, `len = 20`, i.e. source = destination + 4). -/

/-- One iteration per destination offset: `img[n] = img[n + gap]`, ascending. -/
def shiftLoop : List Nat → Nat → Nat → Nat → List Nat
  | img, _, _, 0 => img
  | img, n, gap, k+1 => shiftLoop (img.set n (img.getD (n + gap) 0)) (n + 1) gap k

/-- `shiftBlock(image, sourceOffset, destOffset, length)`: the source loop
with `gap = src - dest` (the script's call shifts a block down, `dest < src`). -/
def shift_block (img : List Nat) (src dest len : Nat) : List Nat :=
  shiftLoop img dest (src - dest) len

/-! ### The gma1 protection patch (source lines 474-484) and the platform
selector (source lines 78-81) -/

/-- The platform-dependent overwrites applied to the `gma1` image:
```
if platform == "pal":
    data_block[0x25] = 0xEA; data_block[0x26] = 0xEA
    data_block[0x27] = 0xEA; data_block[0x2C] = 0xD0
else:
    data_block[0x14] = 0xEA; data_block[0x16] = 0xEA; data_block[0x15] = 0xEA
``` -/
def modify_gma1 (platform : String) (data_block : List Nat) : List Nat :=
  if platform = "pal" then
    (((data_block.set 0x25 0xEA).set 0x26 0xEA).set 0x27 0xEA).set 0x2C 0xD0
  else
    ((data_block.set 0x14 0xEA).set 0x16 0xEA).set 0x15 0xEA

/-- The platform selector (source lines 78-81):
```
if len(sys.argv) >= 2:
    platform = sys.argv[1]
else:
    platform = "pal"
```
`argv` is the full `sys.argv`, whose head is the script name. -/
def fetch_platform (argv : List String) : String :=
  if 2 ≤ argv.length then argv.getD 1 "" else "pal"

/-! ### Characterization of the codec loops -/

lemma decryptLoop_length (k : Nat) : ∀ (img : List Nat) (off s : Nat),
    (decryptLoop img off k s).length = img.length := by
  induction k with
  | zero => intro img off s; rfl
  | succ k ih =>
    intro img off s
    simp only [decryptLoop]
    rw [ih]
    exact List.length_set img off _

lemma encryptLoop_length (k : Nat) : ∀ (img : List Nat) (off : Nat),
    (encryptLoop img off k).length = img.length := by
  induction k with
  | zero => intro img off; rfl
  | succ k ih =>
    intro img off
    simp only [encryptLoop]
    rw [ih]
    exact List.length_set img off _

lemma decrypt_length (img : List Nat) (la sf st s : Nat) :
    (decrypt img la sf st s).length = img.length := by
  unfold decrypt; exact decryptLoop_length _ _ _ _

lemma encrypt_length (img : List Nat) (la sf st s : Nat) :
    (encrypt img la sf st s).length = img.length := by
  unfold encrypt
  rw [List.length_set]
  exact encryptLoop_length _ _ _

lemma dseq_congr (f g : Nat → Nat) (top s : Nat) (d : Nat)
    (h : ∀ i, top - d ≤ i → i ≤ top → f i = g i) :
    dseq f top s d = dseq g top s d := by
  induction d with
  | zero =>
    simp only [dseq]
    rw [h top (by omega) (by omega)]
  | succ d ih =>
    simp only [dseq]
    rw [h (top - (d + 1)) (by omega) (by omega), ih (fun i h1 h2 => h i (by omega) h2)]

lemma dseq_shift (f : Nat → Nat) (top s : Nat) (d : Nat) :
    dseq f top s (d + 1) = dseq f (top - 1) (dseq f top s 0) d := by
  induction d with
  | zero => simp only [dseq]
  | succ d ih =>
    have harith : top - (d + 2) = (top - 1) - (d + 1) := by omega
    calc dseq f top s (d + 2)
        = sub256 (f (top - (d + 2))) (dseq f top s (d + 1)) := rfl
      _ = sub256 (f ((top - 1) - (d + 1))) (dseq f (top - 1) (dseq f top s 0) d) := by
          rw [harith, ih]
      _ = dseq f (top - 1) (dseq f top s 0) (d + 1) := rfl

/-- What the decrypt loop leaves at each offset: offsets in the processed
window `[off + 1 - k, off]` hold the chained value `dseq`, everything else is
untouched. -/
lemma decryptLoop_getD (k : Nat) : ∀ (img : List Nat) (off s j : Nat),
    k ≤ off + 1 → off < img.length →
    (decryptLoop img off k s).getD j 0 =
      if off + 1 - k ≤ j ∧ j ≤ off then
        dseq (fun i => img.getD i 0) off s (off - j)
      else img.getD j 0 := by
  induction k with
  | zero =>
    intro img off s j hk hoff
    simp only [decryptLoop]
    rw [if_neg (by omega)]
  | succ k ih =>
    intro img off s j hk hoff
    simp only [decryptLoop]
    set v := sub256 (img.getD off 0) s with hv
    have hk' : k ≤ (off - 1) + 1 := by omega
    have hoff' : off - 1 < (img.set off v).length := by
      rw [List.length_set]; omega
    rw [ih (img.set off v) (off - 1) v j hk' hoff']
    by_cases hwin : (off - 1) + 1 - k ≤ j ∧ j ≤ off - 1
    · -- j strictly below off, in the recursive window
      have hjlt : j < off := by
        rcases hwin with ⟨h1, h2⟩
        by_cases hoz : off = 0
        · subst hoz
          simp at h2
          subst h2
          omega
        · omega
      rw [if_pos hwin, if_pos (by omega)]
      have hd : off - j = ((off - 1) - j) + 1 := by omega
      rw [hd, dseq_shift (fun i => img.getD i 0) off s ((off - 1) - j)]
      have hs0 : dseq (fun i => img.getD i 0) off s 0 = v := rfl
      rw [hs0]
      apply dseq_congr
      intro i hi1 hi2
      rw [getD_set]
      rw [if_neg (by omega)]
    · rw [if_neg hwin]
      by_cases hj : j = off
      · subst hj
        rw [getD_set, if_pos ⟨rfl, hoff⟩, if_pos (by omega)]
        have hz : j - j = 0 := by omega
        rw [hz]
        rfl
      · rw [getD_set, if_neg (by omega)]
        rw [if_neg (by omega)]

/-- What the encrypt loop leaves at each offset: offsets in the processed
window `[off, off + k)` hold the sum of the two adjacent original bytes,
everything else is untouched.  (No bounds hypothesis is needed: an
out-of-range `List.set` is a no-op and the written value degenerates to the
`getD` default in that case.) -/
lemma encryptLoop_getD (k : Nat) : ∀ (img : List Nat) (off j : Nat),
    (encryptLoop img off k).getD j 0 =
      if off ≤ j ∧ j < off + k then
        add256 (img.getD j 0) (img.getD (j + 1) 0)
      else img.getD j 0 := by
  induction k with
  | zero =>
    intro img off j
    simp only [encryptLoop]
    rw [if_neg (by omega)]
  | succ k ih =>
    intro img off j
    simp only [encryptLoop]
    set v := add256 (img.getD off 0) (img.getD (off + 1) 0) with hv
    rw [ih (img.set off v) (off + 1) j]
    by_cases hwin : off + 1 ≤ j ∧ j < off + 1 + k
    · rw [if_pos hwin, if_pos (by omega)]
      rw [getD_set, if_neg (by omega), getD_set, if_neg (by omega)]
    · rw [if_neg hwin]
      by_cases hj : j = off
      · subst hj
        rw [if_pos (by omega), getD_set]
        by_cases hoff : j < img.length
        · rw [if_pos ⟨rfl, hoff⟩]
        · rw [if_neg (by omega)]
          have hb1 : img.getD j 0 = 0 := getD_of_length_le img j (by omega)
          have hb2 : img.getD (j + 1) 0 = 0 := getD_of_length_le img (j + 1) (by omega)
          rw [hb1, hb2]
          rfl
      · rw [if_neg (by omega), getD_set, if_neg (by omega)]

/-- Pointwise description of the decrypt pass. -/
lemma decrypt_getD (img : List Nat) (la sf st s : Nat)
    (h1 : la ≤ sf) (h2 : sf ≤ st) (h3 : st - la < img.length) (j : Nat) :
    (decrypt img la sf st s).getD j 0 =
      if sf - la ≤ j ∧ j ≤ st - la then
        dseq (fun i => img.getD i 0) (st - la) s ((st - la) - j)
      else img.getD j 0 := by
  unfold decrypt rangeRevLen
  rw [if_pos h2]
  rw [decryptLoop_getD (st - sf + 1) img (st - la) s j (by omega) h3]
  by_cases hwin : sf - la ≤ j ∧ j ≤ st - la
  · rw [if_pos (by omega), if_pos hwin]
  · rw [if_neg (by omega), if_neg hwin]

/-- Pointwise description of the encrypt pass. -/
lemma encrypt_getD (img : List Nat) (la sf st s : Nat)
    (h1 : la ≤ sf) (h2 : sf ≤ st) (h3 : st - la < img.length) (j : Nat) :
    (encrypt img la sf st s).getD j 0 =
      if sf - la ≤ j ∧ j < st - la then
        add256 (img.getD j 0) (img.getD (j + 1) 0)
      else if j = st - la then
        add256 (img.getD (st - la) 0) s
      else img.getD j 0 := by
  unfold encrypt
  simp only
  rw [getD_set]
  have hloop := encryptLoop_getD (st - sf) img (sf - la)
  have hlen : (encryptLoop img (sf - la) (st - sf)).length = img.length :=
    encryptLoop_length _ _ _
  by_cases hj : j = st - la
  · subst hj
    rw [if_pos ⟨rfl, by omega⟩]
    rw [if_neg (by omega), if_pos rfl]
    rw [hloop (st - la), if_neg (by omega)]
  · rw [if_neg (by omega)]
    rw [hloop j]
    by_cases hwin : sf - la ≤ j ∧ j < sf - la + (st - sf)
    · rw [if_pos hwin, if_pos (by omega)]
    · rw [if_neg hwin, if_neg (by omega), if_neg hj]

/-! ### Claim C2: the decrypt pass -/

/-- Claim C2: the decrypt pass processes the window from `scramble_to` down to
`scramble_from` inclusive (the descending traversal is the recursion of
`decryptLoop`, whose offset argument decreases by one per step); the byte at
the top offset becomes `(cipher - seed) mod 256` with the externally supplied
seed, every other window byte becomes `(cipher - seed) mod 256` where the
seed is the freshly written plain value at the next higher offset, and every
byte outside the window (and the image length) is unchanged. -/
theorem decrypt_pass_spec (img : List Nat) (la sf st s : Nat)
    (h1 : la ≤ sf) (h2 : sf ≤ st) (h3 : st - la < img.length) :
    (decrypt img la sf st s).length = img.length ∧
    (∀ j, (j < sf - la ∨ st - la < j) →
      (decrypt img la sf st s).getD j 0 = img.getD j 0) ∧
    (decrypt img la sf st s).getD (st - la) 0 = sub256 (img.getD (st - la) 0) s ∧
    (∀ j, sf - la ≤ j → j < st - la →
      (decrypt img la sf st s).getD j 0 =
        sub256 (img.getD j 0) ((decrypt img la sf st s).getD (j + 1) 0)) := by
  refine ⟨decrypt_length img la sf st s, ?_, ?_, ?_⟩
  · intro j hj
    rw [decrypt_getD img la sf st s h1 h2 h3 j, if_neg (by omega)]
  · rw [decrypt_getD img la sf st s h1 h2 h3 (st - la), if_pos (by omega)]
    have hz : st - la - (st - la) = 0 := by omega
    rw [hz]
    rfl
  · intro j hj1 hj2
    rw [decrypt_getD img la sf st s h1 h2 h3 j, if_pos (by omega),
        decrypt_getD img la sf st s h1 h2 h3 (j + 1), if_pos (by omega)]
    have hd : st - la - j = (st - la - (j + 1)) + 1 := by omega
    rw [hd]
    simp only [dseq]
    have hix : st - la - (st - la - (j + 1) + 1) = j := by omega
    rw [hix]

/-- Witness for C2 at a concrete image and window. -/
theorem decrypt_pass_spec_witness :
    (0 : Nat) ≤ 1 ∧ (1 : Nat) ≤ 2 ∧ 2 - 0 < ([10, 20, 30, 40] : List Nat).length ∧
    ((decrypt [10, 20, 30, 40] 0 1 2 5).length = ([10, 20, 30, 40] : List Nat).length ∧
    (∀ j, (j < 1 - 0 ∨ 2 - 0 < j) →
      (decrypt [10, 20, 30, 40] 0 1 2 5).getD j 0 = ([10, 20, 30, 40] : List Nat).getD j 0) ∧
    (decrypt [10, 20, 30, 40] 0 1 2 5).getD (2 - 0) 0 =
      sub256 (([10, 20, 30, 40] : List Nat).getD (2 - 0) 0) 5 ∧
    (∀ j, 1 - 0 ≤ j → j < 2 - 0 →
      (decrypt [10, 20, 30, 40] 0 1 2 5).getD j 0 =
        sub256 (([10, 20, 30, 40] : List Nat).getD j 0)
          ((decrypt [10, 20, 30, 40] 0 1 2 5).getD (j + 1) 0))) :=
  ⟨by decide, by decide, by decide,
    decrypt_pass_spec [10, 20, 30, 40] 0 1 2 5 (by decide) (by decide) (by decide)⟩

/-! ### Claim C3: the encrypt pass -/

/-- Claim C3: the encrypt pass processes the window from `scramble_from` up to
`scramble_to - 1` (the ascending traversal is the recursion of
`encryptLoop`); each such byte becomes `(plain[n] + plain[n+1]) mod 256`
where `plain[n+1]` is the pre-encryption value of the original image (so the
pass produces the same result as one that snapshots all window bytes before
writing); afterwards the single byte at `scramble_to` becomes
`(plain + seed) mod 256` with the initial seed; bytes outside the window and
the image length are unchanged. -/
theorem encrypt_pass_spec (img : List Nat) (la sf st s : Nat)
    (h1 : la ≤ sf) (h2 : sf ≤ st) (h3 : st - la < img.length) :
    (encrypt img la sf st s).length = img.length ∧
    (∀ j, (j < sf - la ∨ st - la < j) →
      (encrypt img la sf st s).getD j 0 = img.getD j 0) ∧
    (∀ j, sf - la ≤ j → j < st - la →
      (encrypt img la sf st s).getD j 0 = add256 (img.getD j 0) (img.getD (j + 1) 0)) ∧
    (encrypt img la sf st s).getD (st - la) 0 = add256 (img.getD (st - la) 0) s := by
  refine ⟨encrypt_length img la sf st s, ?_, ?_, ?_⟩
  · intro j hj
    rw [encrypt_getD img la sf st s h1 h2 h3 j, if_neg (by omega), if_neg (by omega)]
  · intro j hj1 hj2
    rw [encrypt_getD img la sf st s h1 h2 h3 j, if_pos (by omega)]
  · rw [encrypt_getD img la sf st s h1 h2 h3 (st - la), if_neg (by omega), if_pos rfl]

/-- Witness for C3 at a concrete image and window. -/
theorem encrypt_pass_spec_witness :
    (0 : Nat) ≤ 1 ∧ (1 : Nat) ≤ 2 ∧ 2 - 0 < ([10, 20, 30, 40] : List Nat).length ∧
    ((encrypt [10, 20, 30, 40] 0 1 2 5).length = ([10, 20, 30, 40] : List Nat).length ∧
    (∀ j, (j < 1 - 0 ∨ 2 - 0 < j) →
      (encrypt [10, 20, 30, 40] 0 1 2 5).getD j 0 = ([10, 20, 30, 40] : List Nat).getD j 0) ∧
    (∀ j, 1 - 0 ≤ j → j < 2 - 0 →
      (encrypt [10, 20, 30, 40] 0 1 2 5).getD j 0 =
        add256 (([10, 20, 30, 40] : List Nat).getD j 0)
          (([10, 20, 30, 40] : List Nat).getD (j + 1) 0)) ∧
    (encrypt [10, 20, 30, 40] 0 1 2 5).getD (2 - 0) 0 =
      add256 (([10, 20, 30, 40] : List Nat).getD (2 - 0) 0) 5) :=
  ⟨by decide, by decide, by decide,
    encrypt_pass_spec [10, 20, 30, 40] 0 1 2 5 (by decide) (by decide) (by decide)⟩

/-! ### Claim C1: the round trip -/

/-- Claim C1: for every image, every window whose offsets lie inside the image
(`la ≤ sf ≤ st`, `st - la < length`), and every seed, decrypting and then
re-encrypting with the same window and seed reproduces the image byte for
byte, and so does encrypting and then decrypting. -/
theorem scramble_roundtrip (img : List Nat) (la sf st s : Nat)
    (h1 : la ≤ sf) (h2 : sf ≤ st) (h3 : st - la < img.length)
    (hb : ∀ x ∈ img, x < 256) :
    encrypt (decrypt img la sf st s) la sf st s = img ∧
    decrypt (encrypt img la sf st s) la sf st s = img := by
  constructor
  · -- encrypt ∘ decrypt = id
    have hDlen : (decrypt img la sf st s).length = img.length :=
      decrypt_length img la sf st s
    apply ext_getD
    · rw [encrypt_length, hDlen]
    · intro j hj
      rw [encrypt_length, hDlen] at hj
      rw [encrypt_getD (decrypt img la sf st s) la sf st s h1 h2 (by omega) j]
      by_cases hw : sf - la ≤ j ∧ j < st - la
      · rw [if_pos hw]
        rw [decrypt_getD img la sf st s h1 h2 h3 j, if_pos (by omega),
            decrypt_getD img la sf st s h1 h2 h3 (j + 1), if_pos (by omega)]
        have hd : st - la - j = (st - la - (j + 1)) + 1 := by omega
        rw [hd]
        simp only [dseq]
        have hix : st - la - (st - la - (j + 1) + 1) = j := by omega
        rw [hix]
        exact add256_sub256 _ _ (getD_mem_lt img j hj hb)
      · rw [if_neg hw]
        by_cases hhi : j = st - la
        · subst hhi
          rw [if_pos rfl]
          rw [decrypt_getD img la sf st s h1 h2 h3 (st - la), if_pos (by omega)]
          have hz : st - la - (st - la) = 0 := by omega
          rw [hz]
          show add256 (sub256 (img.getD (st - la) 0) s) s = img.getD (st - la) 0
          exact add256_sub256 _ _ (getD_mem_lt img (st - la) (by omega) hb)
        · rw [if_neg hhi]
          rw [decrypt_getD img la sf st s h1 h2 h3 j, if_neg (by omega)]
  · -- decrypt ∘ encrypt = id
    have hElen : (encrypt img la sf st s).length = img.length :=
      encrypt_length img la sf st s
    have key : ∀ d, d ≤ (st - la) - (sf - la) →
        dseq (fun i => (encrypt img la sf st s).getD i 0) (st - la) s d =
          img.getD ((st - la) - d) 0 := by
      intro d
      induction d with
      | zero =>
        intro hd
        show sub256 ((encrypt img la sf st s).getD (st - la) 0) s = img.getD (st - la) 0
        rw [encrypt_getD img la sf st s h1 h2 h3 (st - la), if_neg (by omega), if_pos rfl]
        exact sub256_add256 _ _ (getD_mem_lt img (st - la) (by omega) hb)
      | succ d ih =>
        intro hd
        show sub256 ((encrypt img la sf st s).getD ((st - la) - (d + 1)) 0)
            (dseq (fun i => (encrypt img la sf st s).getD i 0) (st - la) s d) =
          img.getD ((st - la) - (d + 1)) 0
        rw [ih (by omega)]
        rw [encrypt_getD img la sf st s h1 h2 h3 ((st - la) - (d + 1)), if_pos (by omega)]
        have hsucc : (st - la) - (d + 1) + 1 = (st - la) - d := by omega
        rw [hsucc]
        exact sub256_add256 _ _ (getD_mem_lt img ((st - la) - (d + 1)) (by omega) hb)
    apply ext_getD
    · rw [decrypt_length, hElen]
    · intro j hj
      rw [decrypt_length, hElen] at hj
      rw [decrypt_getD (encrypt img la sf st s) la sf st s h1 h2 (by omega) j]
      by_cases hw : sf - la ≤ j ∧ j ≤ st - la
      · rw [if_pos hw]
        rw [key ((st - la) - j) (by omega)]
        have hix : (st - la) - ((st - la) - j) = j := by omega
        rw [hix]
      · rw [if_neg hw]
        rw [encrypt_getD img la sf st s h1 h2 h3 j, if_neg (by omega), if_neg (by omega)]

/-- Witness for C1 at the script's own window `[0x6A00, 0x6A00 + 0x62D6]`,
seed `0x49`, over an image whose length is the window length plus the two
header bytes (`0x62D7 + 2 = 0x62D9`). -/
theorem scramble_roundtrip_witness :
    load_address ≤ scramble_from ∧ scramble_from ≤ scramble_to ∧
    scramble_to - load_address < (List.replicate 0x62D9 (0xAB : Nat)).length ∧
    encrypt (decrypt (List.replicate 0x62D9 (0xAB : Nat)) load_address scramble_from
        scramble_to seed) load_address scramble_from scramble_to seed =
      List.replicate 0x62D9 (0xAB : Nat) ∧
    decrypt (encrypt (List.replicate 0x62D9 (0xAB : Nat)) load_address scramble_from
        scramble_to seed) load_address scramble_from scramble_to seed =
      List.replicate 0x62D9 (0xAB : Nat) := by
  have hlen : scramble_to - load_address < (List.replicate 0x62D9 (0xAB : Nat)).length := by
    rw [List.length_replicate]
    decide
  have hb : ∀ x ∈ List.replicate 0x62D9 (0xAB : Nat), x < 256 := by
    intro x hx
    rw [List.eq_of_mem_replicate hx]
    decide
  have h := scramble_roundtrip (List.replicate 0x62D9 (0xAB : Nat)) load_address
    scramble_from scramble_to seed (by decide) (by decide) hlen hb
  exact ⟨by decide, by decide, hlen, h.1, h.2⟩

/-! ### Supporting lemmas for slice assignment and the shift loop -/

lemma pySliceIdx_le (len : Nat) (i : Int) : pySliceIdx len i ≤ len := by
  unfold pySliceIdx
  split <;> omega

lemma pySliceIdx_add (len : Nat) (i : Int) (c : Nat) :
    pySliceIdx len (i + c) ≤ pySliceIdx len i + c := by
  unfold pySliceIdx
  split <;> split <;> omega

lemma pySliceIdx_of_nonneg (len : Nat) (i : Int) (h0 : 0 ≤ i) (h1 : i.toNat ≤ len) :
    pySliceIdx len i = i.toNat := by
  unfold pySliceIdx
  rw [if_neg (by omega)]
  omega

/-- In-range slice assignment (start within the buffer) is exactly
"replace the slice, keep the rest in place". -/
lemma insert_bytes_eq (la addr : Int) (b ins : List Nat)
    (h0 : 0 ≤ addr - la) (h1 : (addr - la).toNat ≤ b.length) :
    insert_bytes la b addr ins =
      b.take (addr - la).toNat ++ ins ++ b.drop ((addr - la).toNat + ins.length) := by
  unfold insert_bytes setSlice get_offset
  have hi : pySliceIdx b.length (addr - la) = (addr - la).toNat :=
    pySliceIdx_of_nonneg b.length (addr - la) h0 h1
  have hjval : (addr - la + (ins.length : Int)).toNat = (addr - la).toNat + ins.length := by
    omega
  have hj : pySliceIdx b.length (addr - la + (ins.length : Int)) =
      min ((addr - la).toNat + ins.length) b.length := by
    unfold pySliceIdx
    rw [if_neg (by omega), hjval]
  rw [hi, hj]
  have hmax : max ((addr - la).toNat) (min ((addr - la).toNat + ins.length) b.length) =
      min ((addr - la).toNat + ins.length) b.length := by omega
  rw [hmax]
  congr 1
  by_cases hc : (addr - la).toNat + ins.length ≤ b.length
  · rw [min_eq_left hc]
  · rw [min_eq_right (by omega), List.drop_length,
        List.drop_eq_nil_of_le (by omega)]

/-- Out-of-range slice assignment (start at or past the end): the payload is
appended at the tail. -/
lemma setSlice_append (b s : List Nat) (i j : Int)
    (hi : (b.length : Int) ≤ i) (hj : (b.length : Int) ≤ j) :
    setSlice b i j s = b ++ s := by
  unfold setSlice pySliceIdx
  rw [if_neg (by omega), if_neg (by omega)]
  have h1 : min i.toNat b.length = b.length := by omega
  have h2 : min j.toNat b.length = b.length := by omega
  rw [h1, h2, max_self, List.take_length, List.drop_length, List.append_nil]

/-- Pointwise view of "replace the slice, keep the rest in place". -/
lemma getD_overwrite (b ins : List Nat) (s j : Nat) (hs : s ≤ b.length) :
    (b.take s ++ ins ++ b.drop (s + ins.length)).getD j 0 =
      if s ≤ j ∧ j < s + ins.length then ins.getD (j - s) 0 else b.getD j 0 := by
  have hts : (b.take s).length = s := by rw [List.length_take]; omega
  have hlen1 : (b.take s ++ ins).length = s + ins.length := by
    rw [List.length_append, hts]
  rw [getD_append, hlen1]
  by_cases hl : j < s + ins.length
  · rw [if_pos hl, getD_append, hts]
    by_cases hj : j < s
    · rw [if_pos hj, if_neg (by omega)]
      exact getD_take b s j hj
    · rw [if_neg hj, if_pos (by omega)]
  · rw [if_neg hl, if_neg (by omega), getD_drop]
    congr 1
    omega

lemma shiftLoop_length (k : Nat) : ∀ (img : List Nat) (n gap : Nat),
    (shiftLoop img n gap k).length = img.length := by
  induction k with
  | zero => intro img n gap; rfl
  | succ k ih =>
    intro img n gap
    simp only [shiftLoop]
    rw [ih]
    exact List.length_set img n _

/-- What the shift loop leaves at each offset: each destination offset gets
the pre-shift byte `gap` positions above it (the ascending order never
overwrites a byte before it is read, because `gap ≥ 0`). -/
lemma shiftLoop_getD (k : Nat) : ∀ (img : List Nat) (n gap j : Nat),
    (shiftLoop img n gap k).getD j 0 =
      if n ≤ j ∧ j < n + k then img.getD (j + gap) 0 else img.getD j 0 := by
  induction k with
  | zero =>
    intro img n gap j
    simp only [shiftLoop]
    rw [if_neg (by omega)]
  | succ k ih =>
    intro img n gap j
    simp only [shiftLoop]
    set v := img.getD (n + gap) 0 with hv
    rw [ih (img.set n v) (n + 1) gap j]
    by_cases hwin : n + 1 ≤ j ∧ j < n + 1 + k
    · rw [if_pos hwin, if_pos (by omega), getD_set, if_neg (by omega)]
    · rw [if_neg hwin]
      by_cases hj : j = n
      · subst hj
        rw [if_pos (by omega), getD_set]
        by_cases hb : j < img.length
        · rw [if_pos ⟨rfl, hb⟩]
        · rw [if_neg (by omega), getD_of_length_le img j (by omega),
              getD_of_length_le img (j + gap) (by omega)]
      · rw [if_neg (by omega), getD_set, if_neg (by omega)]

/-! ### Claim C5: the block shift behaves as a snapshot copy -/

/-- Claim C5: for a shift with `dest ≤ src` whose ranges lie in the image
(which covers the script's single shift, the 20-byte LDA/STA block moved
down by 4 bytes), the result equals the order-independent snapshot copy: the
destination range afterwards holds the pre-shift source bytes, and
everything outside `[dest, dest + len)` is unchanged. -/
theorem shift_block_snapshot (img : List Nat) (src dest len : Nat)
    (h1 : dest ≤ src) (h2 : src + len ≤ img.length) :
    shift_block img src dest len =
      img.take dest ++ (img.drop src).take len ++ img.drop (dest + len) ∧
    ((shift_block img src dest len).drop dest).take len = (img.drop src).take len := by
  have hsl : ∀ j, (shift_block img src dest len).getD j 0 =
      if dest ≤ j ∧ j < dest + len then img.getD (j + (src - dest)) 0
      else img.getD j 0 := by
    intro j
    unfold shift_block
    exact shiftLoop_getD len img dest (src - dest) j
  have hlen : (shift_block img src dest len).length = img.length := by
    unfold shift_block
    exact shiftLoop_length len img dest (src - dest)
  constructor
  · apply ext_getD
    · rw [hlen, List.length_append, List.length_append, List.length_take,
          List.length_take, List.length_drop, List.length_drop]
      omega
    · intro j hj
      rw [hlen] at hj
      rw [hsl j]
      have hts : (img.take dest).length = dest := by rw [List.length_take]; omega
      have hmid : ((img.drop src).take len).length = len := by
        rw [List.length_take, List.length_drop]; omega
      have hlen1 : (img.take dest ++ (img.drop src).take len).length = dest + len := by
        rw [List.length_append, hts, hmid]
      rw [getD_append, hlen1]
      by_cases hout : j < dest + len
      · rw [if_pos hout, getD_append, hts]
        by_cases hlo : j < dest
        · rw [if_pos hlo, if_neg (by omega)]
          exact (getD_take img dest j hlo).symm
        · rw [if_neg hlo, if_pos (by omega), getD_take _ _ _ (by omega), getD_drop]
          congr 1
          omega
      · rw [if_neg hout, if_neg (by omega), getD_drop]
        congr 1
        omega
  · apply ext_getD
    · rw [List.length_take, List.length_take, List.length_drop, List.length_drop, hlen]
      omega
    · intro i hi
      have hilt : i < len := by
        rw [List.length_take, List.length_drop, hlen] at hi
        omega
      rw [getD_take _ _ _ hilt, getD_take _ _ _ hilt, getD_drop, getD_drop, hsl (dest + i),
          if_pos (by omega)]
      congr 1
      omega

/-- Witness for C5: a 20-byte block shifted down by 4 inside a 26-byte image,
the shape of the script's LDA/STA shift. -/
theorem shift_block_snapshot_witness :
    (2 : Nat) ≤ 6 ∧ 6 + 20 ≤ (List.range 26).length ∧
    shift_block (List.range 26) 6 2 20 =
      (List.range 26).take 2 ++ ((List.range 26).drop 6).take 20 ++
        (List.range 26).drop (2 + 20) ∧
    ((shift_block (List.range 26) 6 2 20).drop 2).take 20 =
      ((List.range 26).drop 6).take 20 := by
  have h := shift_block_snapshot (List.range 26) 6 2 20 (by decide) (by decide)
  exact ⟨by decide, by decide, h.1, h.2⟩

/-! ### Claim C6: locality of in-range insertions -/

/-- Claim C6: an `insert_bytes` (or `insert_nops`) whose start offset lies
within the image replaces exactly the bytes at `[start, start + length)`
(one for one, growing only by appending at the tail when the end offset
passes the current length) and leaves every byte outside that range at its
prior value and position. -/
theorem insert_bytes_locality (la addr : Int) (b ins : List Nat) (count : Nat)
    (h0 : 0 ≤ addr - la) (h1 : (addr - la).toNat ≤ b.length) :
    insert_bytes la b addr ins =
      b.take (addr - la).toNat ++ ins ++ b.drop ((addr - la).toNat + ins.length) ∧
    (∀ j, (insert_bytes la b addr ins).getD j 0 =
      if (addr - la).toNat ≤ j ∧ j < (addr - la).toNat + ins.length then
        ins.getD (j - (addr - la).toNat) 0
      else b.getD j 0) ∧
    (insert_bytes la b addr ins).length = max b.length ((addr - la).toNat + ins.length) ∧
    insert_nops la b addr count =
      b.take (addr - la).toNat ++ List.replicate count 0xEA ++
        b.drop ((addr - la).toNat + count) := by
  have heq := insert_bytes_eq la addr b ins h0 h1
  refine ⟨heq, ?_, ?_, ?_⟩
  · intro j
    rw [heq]
    exact getD_overwrite b ins (addr - la).toNat j h1
  · rw [heq, List.length_append, List.length_append, List.length_take, List.length_drop]
    omega
  · have h4 := insert_bytes_eq la addr b (List.replicate count 0xEA) h0 h1
    rw [List.length_replicate] at h4
    exact h4

/-- Witness for C6 at a concrete in-range insertion. -/
theorem insert_bytes_locality_witness :
    (0 : Int) ≤ 1 - 0 ∧ ((1 - 0 : Int)).toNat ≤ ([1, 2, 3, 4] : List Nat).length ∧
    insert_bytes 0 [1, 2, 3, 4] 1 [8, 9] =
      ([1, 2, 3, 4] : List Nat).take ((1 - 0 : Int)).toNat ++ [8, 9] ++
        ([1, 2, 3, 4] : List Nat).drop (((1 - 0 : Int)).toNat + ([8, 9] : List Nat).length) ∧
    (insert_bytes 0 [1, 2, 3, 4] 1 [8, 9]).getD 0 0 = ([1, 2, 3, 4] : List Nat).getD 0 0 ∧
    (insert_bytes 0 [1, 2, 3, 4] 1 [8, 9]).length =
      max ([1, 2, 3, 4] : List Nat).length (((1 - 0 : Int)).toNat + ([8, 9] : List Nat).length) ∧
    insert_nops 0 [1, 2, 3, 4] 1 2 =
      ([1, 2, 3, 4] : List Nat).take ((1 - 0 : Int)).toNat ++ List.replicate 2 0xEA ++
        ([1, 2, 3, 4] : List Nat).drop (((1 - 0 : Int)).toNat + 2) := by
  have h := insert_bytes_locality 0 1 [1, 2, 3, 4] [8, 9] 2 (by decide) (by decide)
  refine ⟨by decide, by decide, h.1, ?_, h.2.2.1, h.2.2.2⟩
  rw [h.2.1 0, if_neg (by decide)]

/-! ### Claim C7: no patch shrinks the image; growth is tail-only -/

lemma insert_bytes_length_ge (la addr : Int) (b ins : List Nat) :
    b.length ≤ (insert_bytes la b addr ins).length := by
  unfold insert_bytes setSlice get_offset
  rw [List.length_append, List.length_append, List.length_take, List.length_drop]
  have h1 : pySliceIdx b.length (addr - la) ≤ b.length :=
    pySliceIdx_le b.length (addr - la)
  have h2 : pySliceIdx b.length (addr - la + (ins.length : Int)) ≤
      pySliceIdx b.length (addr - la) + ins.length :=
    pySliceIdx_add b.length (addr - la) ins.length
  have h3 : pySliceIdx b.length (addr - la + (ins.length : Int)) ≤ b.length :=
    pySliceIdx_le b.length _
  omega

/-- Claim C7: no patch operation decreases the image length; an in-range
`insert_bytes` whose end offset stays within the image keeps the length
exactly; bytes of the old image outside the written range keep their values
at their old positions (growth never shifts or inserts in the middle); the
shift loop preserves the length; the `extra.bin` append (`data_block.extend`)
leaves the whole previous image as a prefix and only adds at the tail. -/
theorem patch_growth (la addr : Int) (b ins extra : List Nat) (count : Nat)
    (src dest len2 : Nat) :
    b.length ≤ (insert_bytes la b addr ins).length ∧
    b.length ≤ (insert_binary_file la b addr ins).length ∧
    b.length ≤ (insert_nops la b addr count).length ∧
    (0 ≤ addr - la → (addr - la).toNat + ins.length ≤ b.length →
      (insert_bytes la b addr ins).length = b.length) ∧
    (0 ≤ addr - la → ∀ j, j < b.length →
      (j < (addr - la).toNat ∨ (addr - la).toNat + ins.length ≤ j) →
      (insert_bytes la b addr ins).getD j 0 = b.getD j 0) ∧
    (shift_block b src dest len2).length = b.length ∧
    (b ++ extra).take b.length = b ∧
    (b ++ extra).length = b.length + extra.length := by
  refine ⟨insert_bytes_length_ge la addr b ins, insert_bytes_length_ge la addr b ins,
    insert_bytes_length_ge la addr b (List.replicate count 0xEA), ?_, ?_, ?_, ?_, ?_⟩
  · intro h0 hend
    rw [insert_bytes_eq la addr b ins h0 (by omega), List.length_append,
        List.length_append, List.length_take, List.length_drop]
    omega
  · intro h0 j hj hout
    by_cases hs : (addr - la).toNat ≤ b.length
    · rw [insert_bytes_eq la addr b ins h0 hs,
          getD_overwrite b ins (addr - la).toNat j hs, if_neg (by omega)]
    · have hlen : (b.length : Int) ≤ addr - la := by omega
      show (setSlice b (addr - la) (addr - la + (ins.length : Int)) ins).getD j 0 = b.getD j 0
      rw [setSlice_append b ins (addr - la) (addr - la + (ins.length : Int)) hlen (by omega)]
      rw [getD_append, if_pos hj]
  · unfold shift_block
    exact shiftLoop_length len2 b dest (src - dest)
  · rw [List.take_left]
  · rw [List.length_append]

/-- Witness for C7 at concrete patches. -/
theorem patch_growth_witness :
    ([1, 2, 3, 4] : List Nat).length ≤ (insert_bytes 0 [1, 2, 3, 4] 1 [8, 9]).length ∧
    ([1, 2, 3, 4] : List Nat).length ≤ (insert_binary_file 0 [1, 2, 3, 4] 1 [8, 9]).length ∧
    ([1, 2, 3, 4] : List Nat).length ≤ (insert_nops 0 [1, 2, 3, 4] 1 1).length ∧
    (insert_bytes 0 [1, 2, 3, 4] 1 [8, 9]).length = ([1, 2, 3, 4] : List Nat).length ∧
    (insert_bytes 0 [1, 2, 3, 4] 1 [8, 9]).getD 0 0 = ([1, 2, 3, 4] : List Nat).getD 0 0 ∧
    (shift_block [1, 2, 3, 4] 3 1 1).length = ([1, 2, 3, 4] : List Nat).length ∧
    (([1, 2, 3, 4] : List Nat) ++ [5, 6]).take ([1, 2, 3, 4] : List Nat).length = [1, 2, 3, 4] ∧
    (([1, 2, 3, 4] : List Nat) ++ [5, 6]).length =
      ([1, 2, 3, 4] : List Nat).length + ([5, 6] : List Nat).length := by
  have h := patch_growth 0 1 [1, 2, 3, 4] [8, 9] [5, 6] 1 3 1 1
  exact ⟨h.1, h.2.1, h.2.2.1, h.2.2.2.1 (by decide) (by decide),
    h.2.2.2.2.1 (by decide) 0 (by decide) (by decide), h.2.2.2.2.2.1,
    h.2.2.2.2.2.2.1, h.2.2.2.2.2.2.2⟩

/-! ### Claim C4: out-of-range insertions

The claim says an out-of-range offset aborts the run.  The code has no
bounds check at all: Python slice assignment silently clamps a start at or
past the image end (relocating the write to the tail) and interprets a
negative offset relative to the image end.  The two theorems below exhibit
that behaviour; the counterexample shows the write completing, relocated,
on a concrete out-of-range input. -/

/-- Counterexample to C4: a write at offset 10 into a 3-byte image completes
without any error and lands at offset 3 (the tail), not at offset 10; a
negative offset (address below the load address) wraps to the image end. -/
theorem insert_bytes_unbounded_counterexample :
    insert_bytes 0 [1, 2, 3] 10 [7] = [1, 2, 3, 7] ∧
    (insert_bytes 0 [1, 2, 3] 10 [7]).getD 3 0 = 7 ∧
    insert_bytes 10 [1, 2, 3] 9 [9] = [1, 2, 9, 3] := by
  refine ⟨?_, ?_, ?_⟩ <;> decide

/-- Amended C4: `insert_bytes`/`insert_binary_file`/`insert_nops` never
abort; when the computed start offset is at or past the image end the
payload is silently appended at the tail. -/
theorem insert_bytes_no_bounds (la addr : Int) (b ins : List Nat) (count : Nat)
    (h : (b.length : Int) ≤ addr - la) :
    insert_bytes la b addr ins = b ++ ins ∧
    insert_binary_file la b addr ins = b ++ ins ∧
    insert_nops la b addr count = b ++ List.replicate count 0xEA := by
  refine ⟨?_, ?_, ?_⟩
  · exact setSlice_append b ins (addr - la) (addr - la + (ins.length : Int)) h (by omega)
  · exact setSlice_append b ins (addr - la) (addr - la + (ins.length : Int)) h (by omega)
  · show setSlice b (addr - la) (addr - la + ((List.replicate count (0xEA : Nat)).length : Int))
        (List.replicate count 0xEA) = b ++ List.replicate count 0xEA
    exact setSlice_append b (List.replicate count 0xEA) _ _ h (by omega)

/-- Witness for the amended C4. -/
theorem insert_bytes_no_bounds_witness :
    (([1, 2, 3] : List Nat).length : Int) ≤ 10 - 0 ∧
    insert_bytes 0 [1, 2, 3] 10 [7] = [1, 2, 3] ++ [7] ∧
    insert_binary_file 0 [1, 2, 3] 10 [7] = [1, 2, 3] ++ [7] ∧
    insert_nops 0 [1, 2, 3] 10 2 = [1, 2, 3] ++ List.replicate 2 0xEA := by
  have h := insert_bytes_no_bounds 0 10 [1, 2, 3] [7] 2 (by decide)
  exact ⟨by decide, h.1, h.2.1, h.2.2⟩

/-! ### Claim C8: unrecognized platform selectors

The claim says a selector outside {"pal", "ntsc"} fails with a fatal error.
The code is a plain `if platform == "pal": ... else: ...`, so every non-"pal"
value — recognized or not — silently gets the NTSC overwrite set. -/

/-- Counterexample to C8: the unrecognized selector "foo" does not fail; it
is silently mapped onto the NTSC overwrite set (and does modify the image). -/
theorem platform_fallback_counterexample :
    modify_gma1 "foo" (List.replicate 45 0) = modify_gma1 "ntsc" (List.replicate 45 0) ∧
    modify_gma1 "foo" (List.replicate 45 0) ≠ List.replicate 45 0 := by
  refine ⟨?_, ?_⟩ <;> decide

/-- Amended C8: any selector other than `"pal"` — including every
unrecognized value — selects the NTSC overwrite set; no selector is
rejected. -/
theorem platform_fallback (p : String) (hp : p ≠ "pal") (img : List Nat) :
    modify_gma1 p img = modify_gma1 "ntsc" img := by
  unfold modify_gma1
  rw [if_neg hp, if_neg (by decide)]

/-- Witness for the amended C8. -/
theorem platform_fallback_witness :
    ("secam" : String) ≠ "pal" ∧
    modify_gma1 "secam" [0] = modify_gma1 "ntsc" [0] :=
  ⟨by decide, platform_fallback "secam" (by decide) [0]⟩

/-! ### Claim C9: the two overwrite sets and their frame -/

/-- Claim C9: on a protection image long enough for the target offsets, the
"pal" set writes `0xEA` at offsets `0x25`, `0x26`, `0x27` and `0xD0` at
`0x2C` and leaves every other byte (and the length) unchanged; the "ntsc"
set writes `0xEA` at exactly the disjoint offsets `0x14`, `0x15`, `0x16` and
leaves every other byte unchanged. -/
theorem protection_overwrite_frame (img : List Nat) (h : 0x2C < img.length) :
    ((modify_gma1 "pal" img).length = img.length ∧
     (modify_gma1 "pal" img).getD 0x25 0 = 0xEA ∧
     (modify_gma1 "pal" img).getD 0x26 0 = 0xEA ∧
     (modify_gma1 "pal" img).getD 0x27 0 = 0xEA ∧
     (modify_gma1 "pal" img).getD 0x2C 0 = 0xD0 ∧
     (∀ j, j ≠ 0x25 → j ≠ 0x26 → j ≠ 0x27 → j ≠ 0x2C →
       (modify_gma1 "pal" img).getD j 0 = img.getD j 0)) ∧
    ((modify_gma1 "ntsc" img).length = img.length ∧
     (modify_gma1 "ntsc" img).getD 0x14 0 = 0xEA ∧
     (modify_gma1 "ntsc" img).getD 0x15 0 = 0xEA ∧
     (modify_gma1 "ntsc" img).getD 0x16 0 = 0xEA ∧
     (∀ j, j ≠ 0x14 → j ≠ 0x15 → j ≠ 0x16 →
       (modify_gma1 "ntsc" img).getD j 0 = img.getD j 0)) := by
  have hpal : modify_gma1 "pal" img =
      (((img.set 0x25 0xEA).set 0x26 0xEA).set 0x27 0xEA).set 0x2C 0xD0 := by
    unfold modify_gma1
    rw [if_pos rfl]
  have hntsc : modify_gma1 "ntsc" img =
      ((img.set 0x14 0xEA).set 0x16 0xEA).set 0x15 0xEA := by
    unfold modify_gma1
    rw [if_neg (by decide)]
  constructor
  · refine ⟨?_, ?_, ?_, ?_, ?_, ?_⟩
    · rw [hpal]
      simp [List.length_set]
    · rw [hpal, getD_set, if_neg (by omega), getD_set, if_neg (by omega),
          getD_set, if_neg (by omega), getD_set,
          if_pos ⟨rfl, by omega⟩]
    · rw [hpal, getD_set, if_neg (by omega), getD_set, if_neg (by omega),
          getD_set, if_pos ⟨rfl, by simp [List.length_set]; omega⟩]
    · rw [hpal, getD_set, if_neg (by omega), getD_set,
          if_pos ⟨rfl, by simp [List.length_set]; omega⟩]
    · rw [hpal, getD_set, if_pos ⟨rfl, by simp [List.length_set]; omega⟩]
    · intro j hj1 hj2 hj3 hj4
      rw [hpal, getD_set, if_neg (by omega), getD_set, if_neg (by omega),
          getD_set, if_neg (by omega), getD_set, if_neg (by omega)]
  · refine ⟨?_, ?_, ?_, ?_, ?_⟩
    · rw [hntsc]
      simp [List.length_set]
    · rw [hntsc, getD_set, if_neg (by omega), getD_set, if_neg (by omega),
          getD_set, if_pos ⟨rfl, by omega⟩]
    · rw [hntsc, getD_set, if_pos ⟨rfl, by simp [List.length_set]; omega⟩]
    · rw [hntsc, getD_set, if_neg (by omega), getD_set,
          if_pos ⟨rfl, by simp [List.length_set]; omega⟩]
    · intro j hj1 hj2 hj3
      rw [hntsc, getD_set, if_neg (by omega), getD_set, if_neg (by omega),
          getD_set, if_neg (by omega)]

/-- Witness for C9 on a concrete 45-byte protection image. -/
theorem protection_overwrite_frame_witness :
    0x2C < (List.replicate 45 (7 : Nat)).length ∧
    (modify_gma1 "pal" (List.replicate 45 (7 : Nat))).getD 0x25 0 = 0xEA ∧
    (modify_gma1 "pal" (List.replicate 45 (7 : Nat))).getD 0x2C 0 = 0xD0 ∧
    (modify_gma1 "pal" (List.replicate 45 (7 : Nat))).getD 0 0 =
      (List.replicate 45 (7 : Nat)).getD 0 0 ∧
    (modify_gma1 "ntsc" (List.replicate 45 (7 : Nat))).getD 0x14 0 = 0xEA := by
  have h := protection_overwrite_frame (List.replicate 45 (7 : Nat)) (by decide)
  exact ⟨by decide, h.1.2.1, h.1.2.2.2.2.1,
    h.1.2.2.2.2.2 0 (by decide) (by decide) (by decide) (by decide), h.2.2.1⟩

/-! ### Claim C10: the default platform -/

/-- Claim C10: when no platform argument is supplied on the command line
(`sys.argv` holds just the script name), the selector defaults to `"pal"`
without error, and the protection patch behaves exactly as an explicit
`"pal"` invocation. -/
theorem default_platform (script : String) (img : List Nat) :
    fetch_platform [script] = "pal" ∧
    modify_gma1 (fetch_platform [script]) img = modify_gma1 "pal" img := by
  have h : fetch_platform [script] = "pal" := by
    unfold fetch_platform
    rw [if_neg (by simp)]
  exact ⟨h, by rw [h]⟩

end Elite
